import Mathlib

/-!
Verification of the Project & Session Resolution Engine of
`src/server/projects` (sources staged under `src/server/types/api.ts`):
a shallow embedding of the data model and of the operations
`extractProjectDirectory`, `getSessions` / `parseJsonlSessions`,
`getProjects`, `renameProject`, `deleteSession` and `addProjectManually`,
followed by theorems settling the spec's claims about them.

Modelling conventions:
* ISO-8601 timestamps are modelled as natural numbers (`Date.getTime()`
  milliseconds); a missing/falsy `timestamp` field is `Option.none`.
* One line of a JSONL log file is a `JsonLine`: blank (whitespace-only),
  malformed (fails `JSON.parse`, the raw text kept for identity), or a
  parsed `SessionEntry`.
* JavaScript `Map` objects and the JSON config document are association
  lists in insertion order, matching `Map`/`Object.entries` iteration.
* The filesystem and the environment (`readdir`, `stat`, `package.json`,
  `fs.access`, `path.resolve`, `new Date()`) are an explicit `Env` record;
  a failing `readdir` of a project directory is `Env.projectFiles = none`.
* `Array.prototype.sort` (stable, by a numeric comparator) is modelled by
  the stable descending insertion sort `sortDescBy`.
* The float test `mostRecentCount >= maxCount * 0.25` is the exact rational
  comparison `maxCount ≤ 4 * mostRecentCount` (0.25 is a dyadic rational,
  so the two agree on all integer counts below 2^52).
-/

namespace CalfinsCode

/-- `message` field of a parsed log line. -/
structure MessageBody where
  role : String
  content : String
deriving Repr, DecidableEq

/-- One parsed JSONL log line (interface `SessionEntry` of the source).
Every field is optional; a JS-falsy string field is modelled by `none`
where the source tests truthiness, except where noted in the operations. -/
structure SessionEntry where
  sessionId : Option String := none
  type : Option String := none
  timestamp : Option Nat := none
  cwd : Option String := none
  summary : Option String := none
  message : Option MessageBody := none
deriving Repr, DecidableEq

/-- One raw line of a log file. -/
inductive JsonLine where
  | blank : JsonLine
  | malformed : String → JsonLine
  | entry : SessionEntry → JsonLine
deriving Repr, DecidableEq

/-- A log file of a project directory: its file name, `stat` modification
time, and its lines. -/
structure LogFile where
  name : String
  mtime : Nat
  lines : List JsonLine
deriving Repr, DecidableEq

/-- One value of the persisted `project-config.json` document. -/
structure ProjectConfigEntry where
  displayName : Option String := none
  manuallyAdded : Option Bool := none
  originalPath : Option String := none
deriving Repr, DecidableEq

/-- The config document: project identifier → entry, in insertion order
(`Object.entries` iterates string keys in that order). -/
abbrev ProjectConfig := List (String × ProjectConfigEntry)

/-- The process-wide `projectDirectoryCache` (`Map<string, string>`). -/
abbrev DirCache := List (String × String)

/-- The environment a call runs against: the filesystem as the engine
reads it, plus the ambient clock. -/
structure Env where
  /-- Directory entries of `~/.claude/projects` (each one a directory). -/
  projectDirs : List String
  /-- `readdir` of one project's log directory, in enumeration order;
  `none` models an unreadable or absent directory (the `catch` branch). -/
  projectFiles : String → Option (List LogFile)
  /-- The `name` field of `package.json` at a path; `none` when the file
  is missing, unreadable, malformed or has no name. -/
  packageName : String → Option String
  /-- `fs.access(p)` succeeds. -/
  pathExists : String → Bool
  /-- `fs.access` on `~/.claude/projects/<name>` succeeds. -/
  projectDirExists : String → Bool
  /-- `path.resolve` of the caller-supplied path. -/
  resolvePath : String → String
  /-- `new Date().getTime()` at the call. -/
  now : Nat

/-! ## String helpers

Character-list implementations of the JS string operations the engine
uses (`endsWith`, `startsWith`, `split`, `join`, `trim`, `substring`);
JS strings are modelled as their character sequences. -/

/-- `s.endsWith(t)`. -/
def endsWithStr (s t : String) : Bool :=
  s.data.drop (s.data.length - t.data.length) == t.data

/-- `s.startsWith(t)`. -/
def startsWithStr (s t : String) : Bool :=
  t.data.isPrefixOf s.data

/-- `s.split(c)` on the character level. -/
def splitCharList (c : Char) : List Char → List (List Char)
  | [] => [[]]
  | x :: xs =>
    if x = c then [] :: splitCharList c xs
    else
      match splitCharList c xs with
      | [] => [[x]]
      | l :: ls => (x :: l) :: ls

/-- `s.split(c)`. -/
def splitChar (c : Char) (s : String) : List String :=
  (splitCharList c s.data).map (fun l => ⟨l⟩)

/-- `parts.join(sep)`. -/
def joinWith (sep : String) : List String → String
  | [] => ""
  | [s] => s
  | s :: rest => s ++ sep ++ joinWith sep rest

/-- `s.trim()` (ASCII whitespace suffices for the names at hand). -/
def trimStr (s : String) : String :=
  ⟨((s.data.dropWhile Char.isWhitespace).reverse.dropWhile
      Char.isWhitespace).reverse⟩

/-- `s.substring(0, n)`. -/
def takeStr (s : String) (n : Nat) : String :=
  ⟨s.data.take n⟩

/-! ## Association-list and sorting helpers -/

/-- Lookup in an insertion-ordered association list. -/
def lookupAssoc {β : Type} (m : List (String × β)) (k : String) : Option β :=
  match m with
  | [] => none
  | (k', v) :: rest => if k' = k then some v else lookupAssoc rest k

/-- `Map.set` / object-key update: replace in place, else append. -/
def setAssoc {β : Type} (m : List (String × β)) (k : String) (v : β) :
    List (String × β) :=
  match m with
  | [] => [(k, v)]
  | (k', v') :: rest =>
    if k' = k then (k', v) :: rest else (k', v') :: setAssoc rest k v

/-- `delete config[k]`. -/
def eraseAssoc {β : Type} (m : List (String × β)) (k : String) :
    List (String × β) :=
  m.filter (fun kv => kv.1 ≠ k)

/-- Stable insertion of `x` into a list sorted descending by `key`:
`x` goes after every earlier element with an equal or larger key, which is
how a stable JS sort with comparator `(a, b) => key b - key a` places it. -/
def insertDescBy {α : Type} (key : α → Nat) (x : α) : List α → List α
  | [] => [x]
  | y :: ys => if key y < key x then x :: y :: ys else y :: insertDescBy key x ys

/-- Stable descending sort by a numeric key (models `Array.prototype.sort`
with comparator `(a, b) => key b - key a`, stable per the ES2019 spec). -/
def sortDescBy {α : Type} (key : α → Nat) : List α → List α
  | [] => []
  | x :: xs => insertDescBy key x (sortDescBy key xs)

/-! ## Identifier encoding -/

/-- Character-for-character string rewriting (a JS global single-character
regex replace). -/
def mapChars (f : Char → Char) (s : String) : String :=
  ⟨s.data.map f⟩

/-- `projectName.replace(…)` turning every hyphen into a slash: the
fallback decoding of a project identifier back into a path. -/
def decodeProjectName (name : String) : String :=
  mapChars (fun c => if c = '-' then '/' else c) name

/-- `absolutePath.replace(…)` turning every slash into a hyphen: the
identifier derivation of `addProjectManually`. -/
def encodeProjectPath (p : String) : String :=
  mapChars (fun c => if c = '/' then '-' else c) p

/-! ## DirectoryResolver (`extractProjectDirectory`) -/

/-- The lines JSON-parsing keeps: blank lines are skipped by
`if (line.trim())`, malformed ones by the `catch`. -/
def entryOf : JsonLine → Option SessionEntry
  | .entry e => some e
  | _ => none

/-- Parsed entries of one file, in line order. -/
def fileEntries (f : LogFile) : List SessionEntry :=
  f.lines.filterMap entryOf

/-- State of the cwd-voting scan: per-path occurrence counts (`Map`,
insertion-ordered), the maximum timestamp seen on a cwd-bearing entry, and
the cwd it carried. -/
structure CwdScan where
  counts : List (String × Nat)
  latestTimestamp : Nat
  latestCwd : Option String
deriving Repr, DecidableEq

/-- `cwdCounts.set(cwd, (cwdCounts.get(cwd) || 0) + 1)`. -/
def bumpCount (m : List (String × Nat)) (k : String) : List (String × Nat) :=
  match m with
  | [] => [(k, 1)]
  | (k', v) :: rest =>
    if k' = k then (k', v + 1) :: rest else (k', v) :: bumpCount rest k

/-- One entry of the scan loop. A falsy (absent or empty) `cwd` is skipped;
`new Date(entry.timestamp || 0).getTime()` is `timestamp.getD 0`; the
latest-cwd update uses a strict comparison. -/
def scanCwdStep (st : CwdScan) (e : SessionEntry) : CwdScan :=
  match e.cwd with
  | none => st
  | some c =>
    if c = "" then st
    else
      let counts := bumpCount st.counts c
      let ts := e.timestamp.getD 0
      if st.latestTimestamp < ts then ⟨counts, ts, some c⟩
      else ⟨counts, st.latestTimestamp, st.latestCwd⟩

/-- The scan over every entry of every file, in file then line order. -/
def scanCwds (entries : List SessionEntry) : CwdScan :=
  entries.foldl scanCwdStep ⟨[], 0, none⟩

/-- `Math.max(...cwdCounts.values())` over a non-empty map. -/
def countsMax (counts : List (String × Nat)) : Nat :=
  (counts.map (fun kv => kv.2)).foldl Nat.max 0

/-- The `for (const [cwd, count] of cwdCounts.entries())` loop: the first
key in insertion order whose count equals `m`. -/
def firstMax (counts : List (String × Nat)) (m : Nat) : Option String :=
  match counts with
  | [] => none
  | (k, v) :: rest => if v = m then some k else firstMax rest m

/-- The decision rule of `extractProjectDirectory` once the scan is done
(lines 317–345 of the source): zero paths → decoded name; one path → it;
several → the latest cwd when `mostRecentCount >= maxCount * 0.25`, else
the first path with the maximum count; a falsy outcome falls back to
`latestCwd || decoded` (the "shouldn't reach here" guard). -/
def chooseExtractedPath (projectName : String) (counts : List (String × Nat))
    (latestCwd : Option String) : String :=
  if counts.length = 0 then decodeProjectName projectName
  else if counts.length = 1 then
    match counts with
    | (c, _) :: _ => c
    | [] => decodeProjectName projectName
  else
    let mostRecentCount := (latestCwd.bind (fun c => lookupAssoc counts c)).getD 0
    let maxCount := countsMax counts
    let chosen : Option String :=
      if maxCount ≤ 4 * mostRecentCount then latestCwd
      else firstMax counts maxCount
    let lastResort :=
      match latestCwd with
      | some l => if l = "" then decodeProjectName projectName else l
      | none => decodeProjectName projectName
    match chosen with
    | some c => if c = "" then lastResort else c
    | none => lastResort

/-- The scan plus the decision rule, over a flat entry list. -/
def resolveFromEntries (projectName : String) (entries : List SessionEntry) :
    String :=
  let scan := scanCwds entries
  chooseExtractedPath projectName scan.counts scan.latestCwd

/-- `files.filter(file => file.endsWith('.jsonl'))`. -/
def jsonlFilter (files : List LogFile) : List LogFile :=
  files.filter (fun f => endsWithStr f.name ".jsonl")

/-- Result of one `extractProjectDirectory` call: the path, the cache after
the call, and how many log files this call streamed (0 on a cache hit, and
on the no-file and unreadable-directory branches, which scan nothing). -/
structure ExtractResult where
  path : String
  cache : DirCache
  filesScanned : Nat
deriving Repr, DecidableEq

/-- `extractProjectDirectory(projectName)` (source lines 262–364): cache
hit short-circuits; an unreadable directory or an empty `.jsonl` set falls
back to the decoded name; otherwise every entry of every `.jsonl` file is
scanned and the decision rule applied. Every branch caches its answer. -/
def extractProjectDirectory (env : Env) (cache : DirCache)
    (projectName : String) : ExtractResult :=
  match lookupAssoc cache projectName with
  | some p => ⟨p, cache, 0⟩
  | none =>
    match env.projectFiles projectName with
    | none =>
      let p := decodeProjectName projectName
      ⟨p, setAssoc cache projectName p, 0⟩
    | some files =>
      let jsonl := jsonlFilter files
      if jsonl.isEmpty then
        let p := decodeProjectName projectName
        ⟨p, setAssoc cache projectName p, 0⟩
      else
        let p := resolveFromEntries projectName ((jsonl.map fileEntries).flatten)
        ⟨p, setAssoc cache projectName p, jsonl.length⟩

/-! ## SessionAggregator (`parseJsonlSessions`, `getSessions`) -/

/-- Interface `SessionData`: the per-session accumulator of
`parseJsonlSessions`. `lastActivity` starts at `new Date()` (the ambient
clock) and `cwd` at `entry.cwd || ''`. -/
structure SessionData where
  id : String
  summary : String
  messageCount : Nat
  lastActivity : Nat
  cwd : String
deriving Repr, DecidableEq

/-- The record created on first sight of a session id. -/
def freshSession (now : Nat) (sid : String) (e : SessionEntry) : SessionData :=
  ⟨sid, "New Session", 0, now, (e.cwd.getD "")⟩

/-- `entry.type === 'summary' && entry.summary` (the summary text must be
truthy). -/
def isSummaryEntry (e : SessionEntry) : Bool :=
  e.type == some "summary" &&
    (match e.summary with
     | some s => s ≠ ""
     | none => false)

/-- The first-user-message summary derivation: only a user-authored,
non-empty, non-command message, and only while the summary is still the
placeholder; truncated to 50 characters with an ellipsis suffix. -/
def userSummaryUpdate (d : SessionData) (e : SessionEntry) : SessionData :=
  match e.message with
  | none => d
  | some m =>
    if m.role == "user" && m.content != "" && d.summary == "New Session" then
      if startsWithStr m.content "<command-name>" then d
      else if 50 < m.content.data.length then
        { d with summary := takeStr m.content 50 ++ "..." }
      else { d with summary := m.content }
    else d

/-- The summary branch of the per-entry update: a summary entry overwrites
unconditionally, otherwise the first-user-message derivation applies. -/
def applySummary (d : SessionData) (e : SessionEntry) : SessionData :=
  if isSummaryEntry e then { d with summary := e.summary.getD d.summary }
  else userSummaryUpdate d e

/-- The whole per-entry update (source lines 557–577): summary, then
`messageCount` increment, then `lastActivity` — overwritten by the entry's
timestamp whenever one is present. -/
def applyEntry (d : SessionData) (e : SessionEntry) : SessionData :=
  let d := applySummary d e
  { d with
    messageCount := d.messageCount + 1,
    lastActivity := e.timestamp.getD d.lastActivity }

/-- One line of the `parseJsonlSessions` loop over the insertion-ordered
session map: blank and malformed lines are skipped, as is an entry with a
falsy `sessionId`. -/
def parseStep (now : Nat) (m : List (String × SessionData)) (l : JsonLine) :
    List (String × SessionData) :=
  match entryOf l with
  | none => m
  | some e =>
    match e.sessionId with
    | none => m
    | some sid =>
      if sid = "" then m
      else
        let base := (lookupAssoc m sid).getD (freshSession now sid e)
        setAssoc m sid (applyEntry base e)

/-- The session map a single file produces. -/
def sessionMap (now : Nat) (lines : List JsonLine) :
    List (String × SessionData) :=
  lines.foldl (parseStep now) []

/-- `parseJsonlSessions(filePath)`: the map's values, sorted by
`lastActivity` descending. -/
def parseJsonlSessions (now : Nat) (lines : List JsonLine) :
    List SessionData :=
  sortDescBy (fun d => d.lastActivity) ((sessionMap now lines).map (fun kv => kv.2))

/-- The dedup merge of `getSessions`: a session id already present is never
overwritten (`if (!allSessions.has(session.id))`). -/
def mergeSessions (m : List (String × SessionData)) (ss : List SessionData) :
    List (String × SessionData) :=
  ss.foldl
    (fun m s => if (lookupAssoc m s.id).isSome then m else m ++ [(s.id, s)]) m

/-- The file loop of `getSessions` with its early-exit rule: stop once at
least `2 * (limit + offset)` distinct sessions are collected and at least
`min(3, fileCount)` files were processed. -/
def collectSessions (limit offset now : Nat) :
    List LogFile → List (String × SessionData) → Nat → Nat →
      List (String × SessionData)
  | [], acc, _, _ => acc
  | f :: rest, acc, processed, fileCount =>
    let acc := mergeSessions acc (parseJsonlSessions now f.lines)
    let processed := processed + 1
    if (limit + offset) * 2 ≤ acc.length ∧ min 3 fileCount ≤ processed then acc
    else collectSessions limit offset now rest acc processed fileCount

/-- Interface `Session` as served to clients: `title` is the summary and
both timestamps render `lastActivity`. -/
structure Session where
  id : String
  title : String
  created_at : Nat
  updated_at : Nat
  message_count : Nat
deriving Repr, DecidableEq

/-- The `Session` record materialized from a `SessionData`. -/
def sessionOfData (d : SessionData) : Session :=
  ⟨d.id, d.summary, d.lastActivity, d.lastActivity, d.messageCount⟩

/-- Interface `SessionsResult`; `offset`/`limit` are echoed only on the
main path, so they are optional. -/
structure SessionsResult where
  sessions : List Session
  hasMore : Bool
  total : Nat
  offset : Option Nat := none
  limit : Option Nat := none
deriving Repr, DecidableEq

/-- The complete in-memory session list of one `getSessions` call, after
file-mtime ordering, dedup-collection and the `lastActivity`-descending
sort, before pagination. -/
def allSortedSessions (env : Env) (projectName : String) (limit offset : Nat) :
    List Session :=
  match env.projectFiles projectName with
  | none => []
  | some files =>
    let jsonl := jsonlFilter files
    let sorted := sortDescBy (fun f => f.mtime) jsonl
    let collected := collectSessions limit offset env.now sorted [] 0 sorted.length
    sortDescBy (fun s => s.updated_at)
      (collected.map (fun kv => sessionOfData kv.2))

/-- `getSessions(projectName, limit, offset)` (source lines 452–524): an
unreadable directory or no `.jsonl` files give the empty result; otherwise
the sorted collection is paginated with `slice(offset, offset + limit)`
and `hasMore = offset + limit < total`. Any I/O error is caught and
returns the empty result — the function never throws. -/
def getSessions (env : Env) (projectName : String) (limit offset : Nat) :
    SessionsResult :=
  match env.projectFiles projectName with
  | none => ⟨[], false, 0, none, none⟩
  | some files =>
    if (jsonlFilter files).isEmpty then ⟨[], false, 0, none, none⟩
    else
      let sortedSessions := allSortedSessions env projectName limit offset
      let total := sortedSessions.length
      ⟨(sortedSessions.drop offset).take limit,
        decide (offset + limit < total), total, some offset, some limit⟩

/-! ## ProjectCatalog (`getProjects`, `renameProject`, `deleteSession`,
`addProjectManually`) -/

/-- Interface `SessionMeta`. -/
structure SessionMeta where
  total : Nat
  hasMore : Bool
deriving Repr, DecidableEq

/-- Interface `Project`. -/
structure Project where
  name : String
  displayName : String
  fullPath : String
  sessionMeta : SessionMeta
  sessions : List Session
deriving Repr, DecidableEq

/-- The path-based rendering of `generateDisplayName`: an absolute path
with more than 3 segments shows an ellipsis and the last two segments. -/
def pathBasedName (projectPath : String) : String :=
  if startsWithStr projectPath "/" then
    let parts := (splitChar '/' projectPath).filter (fun s => s ≠ "")
    if 3 < parts.length then
      ".../" ++ joinWith "/" (parts.drop (parts.length - 2))
    else projectPath
  else projectPath

/-- `generateDisplayName(projectName, actualProjectDir)` (source lines
228–259): a truthy `actualProjectDir` wins over the decoded name; a truthy
`package.json` name wins over the path-based rendering. -/
def generateDisplayName (env : Env) (projectName : String)
    (actualProjectDir : Option String) : String :=
  let projectPath :=
    match actualProjectDir with
    | some p => if p = "" then decodeProjectName projectName else p
    | none => decodeProjectName projectName
  match env.packageName projectPath with
  | some n => if n = "" then pathBasedName projectPath else n
  | none => pathBasedName projectPath

/-- One filesystem-discovered project of the `getProjects` loop: resolve
the directory, pick the config display name if truthy else the generated
one, and attach the first-5 session preview. -/
def diskProject (env : Env) (config : ProjectConfig) (cache : DirCache)
    (dirName : String) : Project × DirCache :=
  let r := extractProjectDirectory env cache dirName
  let autoName := generateDisplayName env dirName (some r.path)
  let displayName :=
    match (lookupAssoc config dirName).bind (fun e => e.displayName) with
    | some s => if s = "" then autoName else s
    | none => autoName
  let sr := getSessions env dirName 5 0
  (⟨dirName, displayName, r.path, ⟨sr.total, sr.hasMore⟩, sr.sessions⟩, r.cache)

/-- The first `getProjects` loop, over the directory entries of
`~/.claude/projects`, threading the resolver cache. -/
def diskLoop (env : Env) (config : ProjectConfig) :
    List String → DirCache → List Project × DirCache
  | [], cache => ([], cache)
  | d :: ds, cache =>
    let pc := diskProject env config cache d
    let rest := diskLoop env config ds pc.2
    (pc.1 :: rest.1, rest.2)

/-- The directory of a manually-configured project: its `originalPath` if
truthy, else a resolver call. -/
def manualProjectDir (env : Env) (cache : DirCache) (projectName : String)
    (pc : ProjectConfigEntry) : String × DirCache :=
  match pc.originalPath with
  | some p =>
    if p = "" then
      let r := extractProjectDirectory env cache projectName
      (r.path, r.cache)
    else (p, cache)
  | none =>
    let r := extractProjectDirectory env cache projectName
    (r.path, r.cache)

/-- One manually-configured project synthesized by `getProjects`: config
display name if truthy, else the generated one; empty preview. -/
def manualProject (env : Env) (cache : DirCache) (projectName : String)
    (pc : ProjectConfigEntry) : Project × DirCache :=
  let dc := manualProjectDir env cache projectName pc
  let displayName :=
    match pc.displayName with
    | some s => if s = "" then generateDisplayName env projectName (some dc.1) else s
    | none => generateDisplayName env projectName (some dc.1)
  (⟨projectName, displayName, dc.1, ⟨0, false⟩, []⟩, dc.2)

/-- The second `getProjects` loop: every `manuallyAdded` config entry whose
name is not among the on-disk directories. -/
def manualLoop (env : Env) :
    ProjectConfig → List String → DirCache → List Project × DirCache
  | [], _, cache => ([], cache)
  | (k, pc) :: rest, existing, cache =>
    if k ∉ existing ∧ pc.manuallyAdded = some true then
      let p := manualProject env cache k pc
      let ps := manualLoop env rest existing p.2
      (p.1 :: ps.1, ps.2)
    else manualLoop env rest existing cache

/-- `getProjects()` (source lines 366–450): filesystem-discovered projects
in directory-enumeration order, then manually-added config entries without
a directory, in config order. -/
def getProjects (env : Env) (config : ProjectConfig) (cache : DirCache) :
    List Project × DirCache :=
  let disk := diskLoop env config env.projectDirs cache
  let manual := manualLoop env config env.projectDirs disk.2
  (disk.1 ++ manual.1, manual.2)

/-- `renameProject(projectName, newDisplayName)` (source lines 642–658):
a falsy or all-whitespace new name deletes the whole config entry;
otherwise the trimmed name is written into the (possibly fresh) entry,
keeping its other fields. Returns the config that is persisted. -/
def renameProject (config : ProjectConfig) (projectName newDisplayName : String) :
    ProjectConfig :=
  if trimStr newDisplayName = "" then eraseAssoc config projectName
  else
    setAssoc config projectName
      { (lookupAssoc config projectName).getD {} with
        displayName := some (trimStr newDisplayName) }

/-- `JSON.parse(line).sessionId === sessionId`: a malformed line never
matches (the `catch` returns false / keeps the line). -/
def lineMatchesSession (sid : String) : JsonLine → Bool
  | .entry e => e.sessionId == some sid
  | _ => false

/-- Whitespace-only lines, dropped by `.filter(line => line.trim())`. -/
def isBlankLine : JsonLine → Bool
  | .blank => true
  | _ => false

/-- A `.jsonl` file with at least one non-blank matching line. -/
def fileContainsSession (sid : String) (f : LogFile) : Bool :=
  endsWithStr f.name ".jsonl" &&
    (f.lines.filter (fun l => !isBlankLine l)).any (lineMatchesSession sid)

/-- The file loop of `deleteSession`: the first `.jsonl` file containing
the session is rewritten — its non-blank, non-matching lines kept in
order — and the loop returns at once; every other file is untouched. -/
def deleteFromFiles (sid : String) : List LogFile → Except String (List LogFile)
  | [] => Except.error ("Session " ++ sid ++ " not found in any files")
  | f :: rest =>
    if endsWithStr f.name ".jsonl" then
      let lines := f.lines.filter (fun l => !isBlankLine l)
      if lines.any (lineMatchesSession sid) then
        Except.ok ({ f with
          lines := lines.filter (fun l => !lineMatchesSession sid l) } :: rest)
      else (deleteFromFiles sid rest).map (fun fs => f :: fs)
    else (deleteFromFiles sid rest).map (fun fs => f :: fs)

/-- `deleteSession(projectName, sessionId)` (source lines 661–710): errors
on an unreadable directory or when the project has no `.jsonl` file;
otherwise the file loop. The returned list is the project directory's
files after the call. -/
def deleteSession (env : Env) (projectName sid : String) :
    Except String (List LogFile) :=
  match env.projectFiles projectName with
  | none => Except.error "Error reading project directory"
  | some files =>
    if (jsonlFilter files).isEmpty then
      Except.error "No session files found for this project"
    else deleteFromFiles sid files

/-- Interface `ProjectReturn` of `addProjectManually`. -/
structure ProjectReturn where
  name : String
  path : String
  fullPath : String
  displayName : String
  isManuallyAdded : Bool
  sessions : List Session
deriving Repr, DecidableEq

/-- `addProjectManually(projectPath, displayName)` (source lines 750–800):
the resolved path must exist on the filesystem before anything else — the
config document is not even loaded on that failure; then the derived
identifier must not already be a project directory nor a config key; only
then is the `manuallyAdded` entry persisted. On success the new config
document is returned alongside the synthesized project. -/
def addProjectManually (env : Env) (config : ProjectConfig)
    (projectPath : String) (displayName : Option String) :
    Except String (ProjectReturn × ProjectConfig) :=
  let absolutePath := env.resolvePath projectPath
  if !env.pathExists absolutePath then
    Except.error ("Path does not exist: " ++ absolutePath)
  else
    let projectName := encodeProjectPath absolutePath
    if env.projectDirExists projectName then
      Except.error ("Project already exists for path: " ++ absolutePath)
    else if (lookupAssoc config projectName).isSome then
      Except.error ("Project already configured for path: " ++ absolutePath)
    else
      let entry0 : ProjectConfigEntry :=
        { manuallyAdded := some true, originalPath := some absolutePath }
      let entry :=
        match displayName with
        | some d => if d = "" then entry0 else { entry0 with displayName := some d }
        | none => entry0
      let dn :=
        match displayName with
        | some d =>
          if d = "" then generateDisplayName env projectName (some absolutePath)
          else d
        | none => generateDisplayName env projectName (some absolutePath)
      Except.ok
        (⟨projectName, absolutePath, absolutePath, dn, true, []⟩,
          setAssoc config projectName entry)

/-! ## Association-list lemmas -/

theorem lookupAssoc_setAssoc_self {β : Type} (m : List (String × β))
    (k : String) (v : β) : lookupAssoc (setAssoc m k v) k = some v := by
  induction m with
  | nil => simp [setAssoc, lookupAssoc]
  | cons kv rest ih =>
    by_cases h : kv.1 = k
    · simp [setAssoc, lookupAssoc, h]
    · simpa [setAssoc, lookupAssoc, h] using ih

theorem lookupAssoc_setAssoc_ne {β : Type} (m : List (String × β))
    {k k' : String} (v : β) (h : k ≠ k') :
    lookupAssoc (setAssoc m k v) k' = lookupAssoc m k' := by
  induction m with
  | nil => simp [setAssoc, lookupAssoc, h]
  | cons kv rest ih =>
    by_cases hk : kv.1 = k
    · simp [setAssoc, lookupAssoc, hk, h]
    · by_cases hk' : kv.1 = k'
      · simp [setAssoc, lookupAssoc, hk, hk', Ne.symm h]
      · simpa [setAssoc, lookupAssoc, hk, hk'] using ih

theorem lookupAssoc_eraseAssoc_self {β : Type} (m : List (String × β))
    (k : String) : lookupAssoc (eraseAssoc m k) k = none := by
  induction m with
  | nil => simp [eraseAssoc, lookupAssoc]
  | cons kv rest ih =>
    by_cases h : kv.1 = k
    · simpa [eraseAssoc, lookupAssoc, h] using ih
    · simpa [eraseAssoc, lookupAssoc, h] using ih

theorem lookupAssoc_append_single {β : Type} (m : List (String × β))
    (a : String) (v : β) (k : String) :
    lookupAssoc (m ++ [(a, v)]) k =
      match lookupAssoc m k with
      | some w => some w
      | none => if a = k then some v else none := by
  induction m with
  | nil => simp [lookupAssoc]
  | cons kv rest ih =>
    by_cases h : kv.1 = k
    · simp [lookupAssoc, h]
    · simpa [lookupAssoc, h] using ih

theorem lookupAssoc_cons_isSome {β : Type} (kv : String × β)
    (m : List (String × β)) (k : String)
    (h : (lookupAssoc m k).isSome) :
    (lookupAssoc (kv :: m) k).isSome := by
  by_cases hk : kv.1 = k
  · simp [lookupAssoc, hk]
  · simpa [lookupAssoc, hk] using h

/-! ## DirectoryResolver lemmas and claims C7, C8 -/

/-- Every branch of `extractProjectDirectory` leaves its answer in the
cache under the project name. -/
theorem extract_cache_lookup_self (env : Env) (cache : DirCache)
    (n : String) :
    lookupAssoc (extractProjectDirectory env cache n).cache n =
      some (extractProjectDirectory env cache n).path := by
  unfold extractProjectDirectory
  cases h1 : lookupAssoc cache n with
  | some p => simp [h1]
  | none =>
    cases h2 : env.projectFiles n with
    | none => simp [lookupAssoc_setAssoc_self]
    | some files =>
      by_cases h3 : (jsonlFilter files).isEmpty <;>
        simp [h3, lookupAssoc_setAssoc_self]

/-- The chosen path does not depend on the incoming cache when the name is
not cached. -/
theorem extract_path_of_uncached (env : Env) (cache : DirCache) (n : String)
    (h : lookupAssoc cache n = none) :
    (extractProjectDirectory env cache n).path =
      (extractProjectDirectory env [] n).path := by
  unfold extractProjectDirectory
  cases h2 : env.projectFiles n with
  | none => simp [h, lookupAssoc]
  | some files =>
    by_cases h3 : (jsonlFilter files).isEmpty <;> simp [h, h3, lookupAssoc]

/-- An `extractProjectDirectory` call touches no cache key but its own. -/
theorem extract_cache_lookup_other (env : Env) (cache : DirCache)
    {n p : String} (h : p ≠ n) :
    lookupAssoc (extractProjectDirectory env cache n).cache p =
      lookupAssoc cache p := by
  unfold extractProjectDirectory
  cases h1 : lookupAssoc cache n with
  | some q => simp
  | none =>
    cases h2 : env.projectFiles n with
    | none => simp [lookupAssoc_setAssoc_ne _ _ (Ne.symm h)]
    | some files =>
      by_cases h3 : (jsonlFilter files).isEmpty <;>
        simp [h3, lookupAssoc_setAssoc_ne _ _ (Ne.symm h)]

/-- C7: directory resolution is idempotent and memoized — with no
intervening cache invalidation, a second `extractProjectDirectory` call
for the same project returns the very path the first call returned, leaves
the cache untouched, and streams zero log files (it is a pure cache hit).
The quantification over an arbitrary environment includes the
error-fallback branch (`Env.projectFiles = none`), whose fallback answer
is memoized exactly like a scanned one. -/
theorem C7_resolve_idempotent_memoized :
    ∀ (env : Env) (cache : DirCache) (name : String),
      extractProjectDirectory env
          (extractProjectDirectory env cache name).cache name =
        ⟨(extractProjectDirectory env cache name).path,
          (extractProjectDirectory env cache name).cache, 0⟩ := by
  intro env cache n
  have h := extract_cache_lookup_self env cache n
  set r := extractProjectDirectory env cache n with hr
  unfold extractProjectDirectory
  simp [h]

/-- C8: for a project whose log directory is unreadable or absent,
`getSessions` returns the empty result (`total = 0`, `hasMore = false`,
no sessions) instead of surfacing the I/O error; the embedding is a total
function, mirroring the source's catch-all that never rethrows. -/
theorem C8_unreadable_directory_empty_result :
    ∀ (env : Env) (name : String) (limit offset : Nat),
      env.projectFiles name = none →
      getSessions env name limit offset = ⟨[], false, 0, none, none⟩ := by
  intro env n l o h
  simp [getSessions, h]

def envUnreadable : Env :=
  ⟨[], fun _ => none, fun _ => none, fun _ => false, fun _ => false, id, 0⟩

theorem C8_witness :
    getSessions envUnreadable "my-project" 5 0 = ⟨[], false, 0, none, none⟩ :=
  C8_unreadable_directory_empty_result envUnreadable "my-project" 5 0 rfl

/-! ## Claims C9, C10 -/

/-- C9: `addProjectManually` checks that the resolved path exists on the
filesystem before anything else: when it does not, the call fails with the
`Path does not exist` error no matter what the configuration or the
project-directory layout holds (the duplicate checks never run), and no
new configuration document is produced. -/
theorem C9_add_manually_checks_path_first :
    ∀ (env : Env) (config : ProjectConfig) (p : String)
      (dn : Option String),
      env.pathExists (env.resolvePath p) = false →
      addProjectManually env config p dn =
        Except.error ("Path does not exist: " ++ env.resolvePath p) := by
  intro env config p dn h
  simp [addProjectManually, h]

def envNoPath : Env :=
  ⟨[], fun _ => none, fun _ => none, fun _ => false, fun _ => true, id, 0⟩

theorem C9_witness :
    addProjectManually envNoPath
        [("-tmp-x", { manuallyAdded := some true })] "/tmp/x" none =
      Except.error "Path does not exist: /tmp/x" :=
  C9_add_manually_checks_path_first envNoPath
    [("-tmp-x", { manuallyAdded := some true })] "/tmp/x" none rfl

theorem map_dash_slash_eq_self (l : List Char) :
    l.map (fun c => if c = '-' then '/' else c) = l ↔ '-' ∉ l := by
  induction l with
  | nil => simp
  | cons c cs ih =>
    by_cases hc : c = '-'
    · subst hc; simp
    · simp [hc, ih, Ne.symm hc]

/-- C10: the identifier encoding (slashes to hyphens) composed with the
fallback decoding (hyphens to slashes) is the identity exactly on paths
that contain no hyphen; on a hyphenated path such as `/home/my-app` the
fallback resolution of the derived identifier is a different path. -/
theorem C10_encoding_not_invertible :
    (∀ p : String,
        decodeProjectName (encodeProjectPath p) = p ↔ '-' ∉ p.data)
    ∧ decodeProjectName (encodeProjectPath "/home/my-app") = "/home/my/app"
    ∧ "/home/my/app" ≠ "/home/my-app" := by
  refine ⟨?_, by decide, by decide⟩
  intro p
  obtain ⟨l⟩ := p
  show (⟨(l.map fun c => if c = '/' then '-' else c).map
      fun c => if c = '-' then '/' else c⟩ : String) = ⟨l⟩ ↔ '-' ∉ l
  rw [List.map_map]
  have hfun : ((fun c => if c = '-' then '/' else c) ∘
      fun c => if c = '/' then '-' else c) =
      fun c => if c = '-' then '/' else c := by
    funext c
    by_cases h1 : c = '/'
    · simp [h1]
    · by_cases h2 : c = '-' <;> simp [h1, h2]
  rw [hfun]
  rw [String.ext_iff]
  exact map_dash_slash_eq_self l

/-! ## Claim C5 — `deleteSession` -/

/-- Project fixture for C5: the session `s1` occurs in two `.jsonl` files. -/
def fileWithS1 : LogFile := ⟨"a.jsonl", 5, [.entry { sessionId := some "s1" }]⟩

def otherFileWithS1 : LogFile :=
  ⟨"b.jsonl", 3,
    [.entry { sessionId := some "s1" }, .entry { sessionId := some "s2" }]⟩

def envTwoFiles : Env :=
  ⟨["p"], fun n => if n = "p" then some [fileWithS1, otherFileWithS1] else none,
    fun _ => none, fun _ => false, fun _ => false, id, 0⟩

/-- C5 fails as stated: with `s1` present in two files, `deleteSession`
rewrites only the first file and returns, so the second file still carries
a line whose `sessionId` matches — not all matching lines are removed, and
the total line count does not decrease by the number of matching lines. -/
theorem C5_counterexample :
    deleteSession envTwoFiles "p" "s1" =
        Except.ok [⟨"a.jsonl", 5, []⟩, otherFileWithS1]
      ∧ otherFileWithS1.lines.any (lineMatchesSession "s1") = true := by
  exact ⟨rfl, rfl⟩

/-- C5 as amended: only the FIRST `.jsonl` file (in directory enumeration
order) containing a matching line is rewritten — all its matching lines
removed, every other non-blank line kept, byte-identical and in order
(blank lines are dropped by the rewrite; when the file has none, its line
count decreases by exactly the number of matching lines); later files are
left untouched even when they also match; and when no file contains the
session the operation fails with the not-found error. -/
theorem C5_delete_rewrites_first_matching_file :
    (∀ (sid : String) (pre : List LogFile) (f : LogFile) (suf : List LogFile),
        (∀ g ∈ pre, fileContainsSession sid g = false) →
        fileContainsSession sid f = true →
        deleteFromFiles sid (pre ++ f :: suf) =
          Except.ok (pre ++ { f with lines :=
              ((f.lines.filter (fun l => !isBlankLine l)).filter
                (fun l => !lineMatchesSession sid l)) } :: suf))
    ∧ (∀ (sid : String) (fs : List LogFile),
        (∀ g ∈ fs, fileContainsSession sid g = false) →
        deleteFromFiles sid fs =
          Except.error ("Session " ++ sid ++ " not found in any files"))
    ∧ (∀ (sid : String) (lines : List JsonLine),
        (∀ l ∈ lines, isBlankLine l = false) →
        ((lines.filter (fun l => !isBlankLine l)).filter
            (fun l => !lineMatchesSession sid l)).length =
          lines.length - lines.countP (lineMatchesSession sid)) := by
  refine ⟨?_, ?_, ?_⟩
  · intro sid pre f suf hpre hf
    induction pre with
    | nil =>
      simp only [List.nil_append]
      have hf' := hf
      unfold fileContainsSession at hf'
      rw [Bool.and_eq_true] at hf'
      have hjsonl : endsWithStr f.name ".jsonl" = true := hf'.1
      have hany : (f.lines.filter (fun l => !isBlankLine l)).any
          (lineMatchesSession sid) = true := hf'.2
      unfold deleteFromFiles
      simp [hjsonl, hany]
    | cons g pre' ih =>
      have hg : fileContainsSession sid g = false := hpre g (by simp)
      have hpre' : ∀ g' ∈ pre', fileContainsSession sid g' = false :=
        fun g' hm => hpre g' (by simp [hm])
      have ihr := ih hpre'
      simp only [List.cons_append]
      unfold deleteFromFiles
      by_cases hj : endsWithStr g.name ".jsonl"
      · have hany : (g.lines.filter (fun l => !isBlankLine l)).any
            (lineMatchesSession sid) = false := by
          unfold fileContainsSession at hg
          rcases Bool.and_eq_false_iff.mp hg with h | h
          · exact absurd hj (by simp [h])
          · exact h
        simp [hj, hany, ihr, Except.map]
      · simp [hj, ihr, Except.map]
  · intro sid fs hall
    induction fs with
    | nil => rfl
    | cons g fs' ih =>
      have hg : fileContainsSession sid g = false := hall g (by simp)
      have ihr := ih (fun g' hm => hall g' (by simp [hm]))
      unfold deleteFromFiles
      by_cases hj : endsWithStr g.name ".jsonl"
      · have hany : (g.lines.filter (fun l => !isBlankLine l)).any
            (lineMatchesSession sid) = false := by
          unfold fileContainsSession at hg
          rcases Bool.and_eq_false_iff.mp hg with h | h
          · exact absurd hj (by simp [h])
          · exact h
        simp [hj, hany, ihr, Except.map]
      · simp [hj, ihr, Except.map]
  · intro sid lines hnb
    have h1 : lines.filter (fun l => !isBlankLine l) = lines :=
      List.filter_eq_self.mpr (fun l hm => by simp [hnb l hm])
    rw [h1]
    have h2 := List.length_eq_countP_add_countP (lineMatchesSession sid) lines
    have h3 : (lines.filter (fun l => !lineMatchesSession sid l)).length =
        lines.countP (fun l => !lineMatchesSession sid l) :=
      (List.countP_eq_length_filter _ lines).symm
    rw [h3]
    have h4 : lines.countP (fun l => !lineMatchesSession sid l) =
        lines.countP (fun a => decide ¬lineMatchesSession sid a = true) := by
      apply List.countP_congr
      intro l _
      simp
    omega

/-! ## Claim C4 — `lastActivity` -/

/-- The contributing entries of a session: the parsed lines bearing its
`sessionId`, in file order. -/
def sessionEntriesFor (sid : String) (lines : List JsonLine) :
    List SessionEntry :=
  (lines.filterMap entryOf).filter (fun e => e.sessionId == some sid)

/-- The CLAIM's reading of `lastActivity` (not the code's): the maximum
timestamp over all contributing entries. Kept for comparison only. -/
def specMaxTimestamp (sid : String) (lines : List JsonLine) : Nat :=
  ((sessionEntriesFor sid lines).filterMap (fun e => e.timestamp)).foldl
    Nat.max 0

def linesC4 : List JsonLine :=
  [.entry { sessionId := some "s1", timestamp := some 100 },
   .entry { sessionId := some "s1", timestamp := some 50 }]

/-- C4 fails as stated: in a file whose `s1` entries carry timestamps 100
then 50, the aggregated `lastActivity` is 50 (the last entry's timestamp),
not the maximum 100 — each entry with a timestamp overwrites
`lastActivity` unconditionally. -/
theorem C4_counterexample :
    ¬ (∀ d ∈ parseJsonlSessions 0 linesC4,
        d.lastActivity = specMaxTimestamp d.id linesC4) := by decide

theorem applySummary_id_lastActivity (d : SessionData) (e : SessionEntry) :
    (applySummary d e).id = d.id ∧
      (applySummary d e).lastActivity = d.lastActivity := by
  unfold applySummary
  by_cases h : isSummaryEntry e
  · simp [h]
  · simp only [h, Bool.false_eq_true, if_false]
    unfold userSummaryUpdate
    cases e.message with
    | none => exact ⟨rfl, rfl⟩
    | some m =>
      by_cases h2 : (m.role == "user" && m.content != "" &&
          d.summary == "New Session") = true
      · simp only [h2, if_true]
        by_cases h3 : startsWithStr m.content "<command-name>" = true
        · simp [h3]
        · simp only [h3, Bool.false_eq_true, if_false]
          split <;> exact ⟨rfl, rfl⟩
      · simp [h2]

theorem applyEntry_lastActivity (d : SessionData) (e : SessionEntry) :
    (applyEntry d e).lastActivity = e.timestamp.getD d.lastActivity := by
  unfold applyEntry
  simp [(applySummary_id_lastActivity d e).2]

theorem sessionMap_lastActivity_aux (now : Nat) :
    ∀ (lines : List JsonLine) (m : List (String × SessionData))
      (sid : String) (d : SessionData), sid ≠ "" →
      lookupAssoc (lines.foldl (parseStep now) m) sid = some d →
      d.lastActivity =
        (sessionEntriesFor sid lines).foldl
          (fun acc e => e.timestamp.getD acc)
          (match lookupAssoc m sid with
           | some d0 => d0.lastActivity
           | none => now) := by
  intro lines
  induction lines with
  | nil =>
    intro m sid d hne hl
    simp only [List.foldl_nil] at hl
    simp [sessionEntriesFor, hl]
  | cons l ls ih =>
    intro m sid d hne hl
    rw [List.foldl_cons] at hl
    cases hE : entryOf l with
    | none =>
      have hm : parseStep now m l = m := by simp [parseStep, hE]
      rw [hm] at hl
      simpa [sessionEntriesFor, List.filterMap_cons, hE] using
        ih m sid d hne hl
    | some e =>
      cases hS : e.sessionId with
      | none =>
        have hm : parseStep now m l = m := by simp [parseStep, hE, hS]
        rw [hm] at hl
        simpa [sessionEntriesFor, List.filterMap_cons, hE, hS] using
          ih m sid d hne hl
      | some s' =>
        by_cases hs0 : s' = ""
        · have hm : parseStep now m l = m := by
            simp [parseStep, hE, hS, hs0]
          rw [hm] at hl
          have hdrop : (e.sessionId == some sid) = false := by
            simp [hS, hs0, Ne.symm hne]
          simpa [sessionEntriesFor, List.filterMap_cons, hE, hdrop] using
            ih m sid d hne hl
        · by_cases hss : s' = sid
          · subst hss
            have hm : parseStep now m l =
                setAssoc m s'
                  (applyEntry ((lookupAssoc m s').getD
                    (freshSession now s' e)) e) := by
              simp [parseStep, hE, hS, hs0]
            rw [hm] at hl
            have hkeep : (e.sessionId == some s') = true := by simp [hS]
            have hthis := ih _ s' d hne hl
            rw [lookupAssoc_setAssoc_self] at hthis
            have hbase : (applyEntry ((lookupAssoc m s').getD
                (freshSession now s' e)) e).lastActivity =
                e.timestamp.getD
                  (match lookupAssoc m s' with
                   | some d0 => d0.lastActivity
                   | none => now) := by
              rw [applyEntry_lastActivity]
              cases lookupAssoc m s' <;> simp [freshSession]
            have hthis2 : d.lastActivity =
                List.foldl (fun acc e => e.timestamp.getD acc)
                  ((applyEntry ((lookupAssoc m s').getD
                    (freshSession now s' e)) e).lastActivity)
                  (sessionEntriesFor s' ls) := hthis
            rw [hbase] at hthis2
            simpa [sessionEntriesFor, List.filterMap_cons, hE, hkeep] using
              hthis2
          · have hm : parseStep now m l =
                setAssoc m s'
                  (applyEntry ((lookupAssoc m s').getD
                    (freshSession now s' e)) e) := by
              simp [parseStep, hE, hS, hs0]
            rw [hm] at hl
            have hdrop : (e.sessionId == some sid) = false := by
              simp [hS, hss]
            have hlook : lookupAssoc (setAssoc m s'
                (applyEntry ((lookupAssoc m s').getD
                  (freshSession now s' e)) e)) sid = lookupAssoc m sid :=
              lookupAssoc_setAssoc_ne m _ hss
            have hthis := ih _ sid d hne hl
            rw [hlook] at hthis
            simpa [sessionEntriesFor, List.filterMap_cons, hE, hdrop] using
              hthis

/-- C4 as amended: within one file, a session's `lastActivity` is the
timestamp of the LAST contributing entry (in file order) that bears a
timestamp — every timestamped entry overwrites it unconditionally — and
it stays the record-creation default (the ambient clock) when no
contributing entry bears one. The fold below is exactly that last-write
semantics. -/
theorem C4_lastActivity_last_write_wins :
    ∀ (now : Nat) (lines : List JsonLine) (sid : String) (d : SessionData),
      sid ≠ "" →
      lookupAssoc (sessionMap now lines) sid = some d →
      d.lastActivity =
        (sessionEntriesFor sid lines).foldl
          (fun acc e => e.timestamp.getD acc) now := by
  intro now lines sid d h hl
  have := sessionMap_lastActivity_aux now lines [] sid d h hl
  simpa [lookupAssoc] using this

theorem C4_witness :
    (⟨"s1", "New Session", 2, 50, ""⟩ : SessionData).lastActivity =
      (sessionEntriesFor "s1" linesC4).foldl
        (fun acc e => e.timestamp.getD acc) 0 :=
  C4_lastActivity_last_write_wins 0 linesC4 "s1"
    ⟨"s1", "New Session", 2, 50, ""⟩ (by decide) (by decide)

/-! ## Claim C1 — the directory-resolution decision rule -/

theorem bumpCount_keys {m : List (String × Nat)} {c : String}
    (hm : ∀ kv ∈ m, kv.1 ≠ "") (hc : c ≠ "") :
    ∀ kv ∈ bumpCount m c, kv.1 ≠ "" := by
  induction m with
  | nil =>
    intro kv hkv
    simp [bumpCount] at hkv
    simp [hkv, hc]
  | cons kv0 rest ih =>
    intro kv hkv
    by_cases h : kv0.1 = c
    · simp [bumpCount, h] at hkv
      rcases hkv with h1 | h1
      · rw [h1]; exact h ▸ hc
      · exact hm kv (by simp [h1])
    · simp [bumpCount, h] at hkv
      rcases hkv with h1 | h1
      · rw [h1]; exact hm kv0 (by simp)
      · exact ih (fun kv h2 => hm kv (by simp [h2])) kv h1

theorem lookupAssoc_bumpCount_self (m : List (String × Nat)) (c : String) :
    (lookupAssoc (bumpCount m c) c).isSome := by
  induction m with
  | nil => simp [bumpCount, lookupAssoc]
  | cons kv rest ih =>
    by_cases h : kv.1 = c
    · simp [bumpCount, h, lookupAssoc]
    · simpa [bumpCount, h, lookupAssoc] using ih

theorem lookupAssoc_bumpCount_mono {m : List (String × Nat)} {x : String}
    (c : String) (h : (lookupAssoc m x).isSome) :
    (lookupAssoc (bumpCount m c) x).isSome := by
  induction m with
  | nil => simp [lookupAssoc] at h
  | cons kv rest ih =>
    by_cases hk : kv.1 = c
    · by_cases hx : kv.1 = x <;> simp_all [bumpCount, lookupAssoc, hk, hx]
    · by_cases hx : kv.1 = x <;> simp_all [bumpCount, lookupAssoc, hk, hx]

/-- Invariant of the cwd scan: every counted path is non-empty, and a
recorded latest cwd is non-empty and counted. -/
def ScanInv (st : CwdScan) : Prop :=
  (∀ kv ∈ st.counts, kv.1 ≠ "") ∧
    (∀ c, st.latestCwd = some c →
      c ≠ "" ∧ (lookupAssoc st.counts c).isSome)

theorem scanCwdStep_inv (st : CwdScan) (e : SessionEntry)
    (h : ScanInv st) : ScanInv (scanCwdStep st e) := by
  obtain ⟨hkeys, hlatest⟩ := h
  unfold scanCwdStep
  cases hc : e.cwd with
  | none => exact ⟨hkeys, hlatest⟩
  | some c =>
    by_cases h0 : c = ""
    · simpa [h0] using ⟨hkeys, hlatest⟩
    · simp only [h0, if_false]
      by_cases hts : st.latestTimestamp < e.timestamp.getD 0
      · rw [if_pos hts]
        refine ⟨bumpCount_keys hkeys h0, ?_⟩
        intro c' hc'
        have hcc : c = c' := by injection hc'
        subst hcc
        exact ⟨h0, lookupAssoc_bumpCount_self st.counts c⟩
      · rw [if_neg hts]
        refine ⟨bumpCount_keys hkeys h0, ?_⟩
        intro c' hc'
        obtain ⟨h1, h2⟩ := hlatest c' hc'
        exact ⟨h1, lookupAssoc_bumpCount_mono c h2⟩

theorem scanCwds_inv (entries : List SessionEntry) :
    ScanInv (scanCwds entries) := by
  unfold scanCwds
  have : ∀ (es : List SessionEntry) (st : CwdScan), ScanInv st →
      ScanInv (es.foldl scanCwdStep st) := by
    intro es
    induction es with
    | nil => intro st h; exact h
    | cons e es' ih =>
      intro st h
      exact ih _ (scanCwdStep_inv st e h)
  refine this _ _ ⟨?_, ?_⟩ <;> simp

theorem firstMax_mem {counts : List (String × Nat)} {m : Nat} {c' : String}
    (h : firstMax counts m = some c') : ∃ v, (c', v) ∈ counts := by
  induction counts with
  | nil => simp [firstMax] at h
  | cons kv rest ih =>
    by_cases hv : kv.2 = m
    · unfold firstMax at h
      rw [if_pos hv] at h
      injection h with h
      exact ⟨kv.2, by simp [← h]⟩
    · unfold firstMax at h
      rw [if_neg hv] at h
      obtain ⟨v, hvmem⟩ := ih h
      exact ⟨v, by simp [hvmem]⟩

theorem choose_recent (name : String) (counts : List (String × Nat))
    (c : String) (hlen : 2 ≤ counts.length) (hc : c ≠ "")
    (hcond : countsMax counts ≤ 4 * ((lookupAssoc counts c).getD 0)) :
    chooseExtractedPath name counts (some c) = c := by
  unfold chooseExtractedPath
  have h0 : ¬counts.length = 0 := by omega
  have h1 : ¬counts.length = 1 := by omega
  rw [if_neg h0, if_neg h1]
  dsimp only
  rw [show ((some c).bind fun x => lookupAssoc counts x) =
    lookupAssoc counts c from rfl]
  rw [if_pos hcond]
  simp [hc]

theorem choose_majority (name : String) (counts : List (String × Nat))
    (c c' : String) (hlen : 2 ≤ counts.length)
    (hcond : ¬countsMax counts ≤ 4 * ((lookupAssoc counts c).getD 0))
    (hfm : firstMax counts (countsMax counts) = some c') (hc' : c' ≠ "") :
    chooseExtractedPath name counts (some c) = c' := by
  unfold chooseExtractedPath
  have h0 : ¬counts.length = 0 := by omega
  have h1 : ¬counts.length = 1 := by omega
  rw [if_neg h0, if_neg h1]
  dsimp only
  rw [show ((some c).bind fun x => lookupAssoc counts x) =
    lookupAssoc counts c from rfl]
  rw [if_neg hcond, hfm]
  simp [hc']

def cwdVoteEntryA : SessionEntry := { cwd := some "/a", timestamp := some 1 }
def cwdVoteEntryB : SessionEntry := { cwd := some "/b", timestamp := some 100 }

/-- Entries realizing cwd counts `{/a: 10, /b: 1}` with latest cwd `/b`. -/
def entriesTenToOne : List SessionEntry :=
  List.replicate 10 cwdVoteEntryA ++ [cwdVoteEntryB]

/-- Entries realizing cwd counts `{/a: 10, /b: 4}` with latest cwd `/b`. -/
def entriesTenToFour : List SessionEntry :=
  List.replicate 10 cwdVoteEntryA ++ List.replicate 4 cwdVoteEntryB

/-- C1: the decision rule of directory resolution. With at least two
distinct observed paths, the latest-timestamp path `c` (as the scan
records it) is chosen whenever `maxCount ≤ 4 × recentCount` — the exact
form of `recentCount ≥ 0.25 × maxCount` — and otherwise the first path in
map-iteration order whose count equals `maxCount` is chosen; one observed
path is returned as is; zero observed paths fall back to the decoded
project name. On counts `{/a:10, /b:1}` with latest `/b` the resolver
picks `/a`, and on `{/a:10, /b:4}` it picks `/b`. -/
theorem C1_directory_resolution_decision_rule :
    (∀ (name : String) (entries : List SessionEntry) (c : String),
        2 ≤ (scanCwds entries).counts.length →
        (scanCwds entries).latestCwd = some c →
        countsMax (scanCwds entries).counts ≤
          4 * ((lookupAssoc (scanCwds entries).counts c).getD 0) →
        resolveFromEntries name entries = c)
    ∧ (∀ (name : String) (entries : List SessionEntry) (c c' : String),
        2 ≤ (scanCwds entries).counts.length →
        (scanCwds entries).latestCwd = some c →
        ¬countsMax (scanCwds entries).counts ≤
            4 * ((lookupAssoc (scanCwds entries).counts c).getD 0) →
        firstMax (scanCwds entries).counts
            (countsMax (scanCwds entries).counts) = some c' →
        resolveFromEntries name entries = c')
    ∧ (∀ (name : String) (entries : List SessionEntry) (c : String)
        (n : Nat), (scanCwds entries).counts = [(c, n)] →
        resolveFromEntries name entries = c)
    ∧ (∀ (name : String) (entries : List SessionEntry),
        (scanCwds entries).counts = [] →
        resolveFromEntries name entries = decodeProjectName name)
    ∧ resolveFromEntries "my-project" entriesTenToOne = "/a"
    ∧ resolveFromEntries "my-project" entriesTenToFour = "/b" := by
  refine ⟨?_, ?_, ?_, ?_, by decide, by decide⟩
  · intro name entries c hlen hlatest hcond
    have hinv := scanCwds_inv entries
    obtain ⟨hc, _⟩ := hinv.2 c hlatest
    show chooseExtractedPath name (scanCwds entries).counts
      (scanCwds entries).latestCwd = c
    rw [hlatest]
    exact choose_recent name _ c hlen hc hcond
  · intro name entries c c' hlen hlatest hcond hfm
    have hinv := scanCwds_inv entries
    obtain ⟨v, hvmem⟩ := firstMax_mem hfm
    have hc' : c' ≠ "" := hinv.1 (c', v) hvmem
    show chooseExtractedPath name (scanCwds entries).counts
      (scanCwds entries).latestCwd = c'
    rw [hlatest]
    exact choose_majority name _ c c' hlen hcond hfm hc'
  · intro name entries c n hcounts
    show chooseExtractedPath name (scanCwds entries).counts
      (scanCwds entries).latestCwd = c
    rw [hcounts]
    simp [chooseExtractedPath]
  · intro name entries hcounts
    show chooseExtractedPath name (scanCwds entries).counts
      (scanCwds entries).latestCwd = decodeProjectName name
    rw [hcounts]
    simp [chooseExtractedPath]

/-! ## Claim C3 — the pagination invariant -/

/-- C3: every `getSessions` result is the window `[offset, offset+limit)`
of the complete collected session set sorted by `lastActivity` descending
(`allSortedSessions`), its `total` is that set's size, its length is
`min(limit, total - offset)` (so 0 once `offset ≥ total`, by saturating
subtraction), and `hasMore` is exactly `offset + limit < total`. The empty
branches (unreadable directory, no log files) satisfy the same equations
with the empty set. -/
theorem C3_pagination_invariant :
    ∀ (env : Env) (name : String) (limit offset : Nat),
      (getSessions env name limit offset).sessions =
          ((allSortedSessions env name limit offset).drop offset).take limit
      ∧ (getSessions env name limit offset).total =
          (allSortedSessions env name limit offset).length
      ∧ (getSessions env name limit offset).sessions.length =
          min limit ((getSessions env name limit offset).total - offset)
      ∧ ((getSessions env name limit offset).total ≤ offset →
          (getSessions env name limit offset).sessions = [])
      ∧ (getSessions env name limit offset).hasMore =
          decide (offset + limit < (getSessions env name limit offset).total) := by
  intro env n limit offset
  cases h : env.projectFiles n with
  | none =>
    refine ⟨?_, ?_, ?_, ?_, ?_⟩ <;>
      simp [getSessions, allSortedSessions, h]
  | some files =>
    by_cases hj : (jsonlFilter files).isEmpty
    · have hnil : jsonlFilter files = [] := by
        cases hfe : jsonlFilter files with
        | nil => rfl
        | cons a l => rw [hfe] at hj; simp [List.isEmpty] at hj
      refine ⟨?_, ?_, ?_, ?_, ?_⟩ <;>
        simp [getSessions, allSortedSessions, h, hj, hnil, sortDescBy,
          collectSessions]
    · refine ⟨?_, ?_, ?_, ?_, ?_⟩
      · simp [getSessions, h, hj]
      · simp [getSessions, h, hj]
      · simp only [getSessions, h, hj, if_false]
        simp [List.length_take, List.length_drop]
      · intro htot
        simp only [getSessions, h, hj, if_false] at htot ⊢
        have hdrop : (allSortedSessions env n limit offset).drop offset = [] :=
          List.drop_eq_nil_of_le htot
        simp [hdrop]
      · simp [getSessions, h, hj]

/-! ## Claim C2 — first-seen-wins deduplication -/

theorem mem_insertDescBy {α : Type} (key : α → Nat) (x a : α)
    (l : List α) : a ∈ insertDescBy key x l ↔ a = x ∨ a ∈ l := by
  induction l with
  | nil => simp [insertDescBy]
  | cons y ys ih =>
    by_cases h : key y < key x
    · simp [insertDescBy, h]
    · simp only [insertDescBy, h, if_false, List.mem_cons, ih]
      tauto

theorem mem_sortDescBy {α : Type} (key : α → Nat) (a : α) (l : List α) :
    a ∈ sortDescBy key l ↔ a ∈ l := by
  induction l with
  | nil => simp [sortDescBy]
  | cons x xs ih => simp [sortDescBy, mem_insertDescBy, ih]

theorem find?_eq_of_unique {α : Type} (p : α → Bool) {l : List α} {a : α}
    (ha : a ∈ l) (hpa : p a = true)
    (huniq : ∀ x ∈ l, p x = true → x = a) : l.find? p = some a := by
  induction l with
  | nil => simp at ha
  | cons y ys ih =>
    by_cases hy : p y = true
    · have hya : y = a := huniq y (by simp) hy
      rw [List.find?_cons_of_pos _ hy, hya]
    · have hne : a ≠ y := fun h => hy (h ▸ hpa)
      have ha' : a ∈ ys := by
        rcases List.mem_cons.mp ha with h | h
        · exact absurd h hne
        · exact h
      rw [List.find?_cons_of_neg _ (by simpa using hy)]
      exact ih ha' (fun x hx hpx => huniq x (by simp [hx]) hpx)

theorem lookupAssoc_mem {β : Type} {m : List (String × β)} {k : String}
    {v : β} (h : lookupAssoc m k = some v) : (k, v) ∈ m := by
  induction m with
  | nil => simp [lookupAssoc] at h
  | cons kv rest ih =>
    by_cases hk : kv.1 = k
    · unfold lookupAssoc at h
      rw [if_pos hk] at h
      injection h with h
      have hkv : kv = (k, v) := by
        rw [Prod.ext_iff]
        exact ⟨hk, h⟩
      rw [← hkv]
      exact List.mem_cons_self kv rest
    · unfold lookupAssoc at h
      rw [if_neg hk] at h
      exact List.mem_cons_of_mem _ (ih h)

theorem applyEntry_id (d : SessionData) (e : SessionEntry) :
    (applyEntry d e).id = d.id := by
  unfold applyEntry
  simp [(applySummary_id_lastActivity d e).1]

/-- Well-formedness of a session map: each value's `id` is its key, and
keys are distinct (as a JS `Map`'s are). -/
def MapWf (m : List (String × SessionData)) : Prop :=
  (∀ kv ∈ m, kv.2.id = kv.1) ∧ (m.map Prod.fst).Nodup

theorem mem_keys_setAssoc {m : List (String × SessionData)} {k x : String}
    {v : SessionData} (h : x ∈ (setAssoc m k v).map Prod.fst) :
    x ∈ m.map Prod.fst ∨ x = k := by
  induction m with
  | nil => simp [setAssoc] at h; simp [h]
  | cons kv rest ih =>
    by_cases hk : kv.1 = k
    · unfold setAssoc at h
      rw [if_pos hk] at h
      simp at h
      rcases h with h | h
      · left; simp [h]
      · left; simp [h]
    · unfold setAssoc at h
      rw [if_neg hk] at h
      simp at h
      rcases h with h | h
      · left; simp [h]
      · rcases ih (by simpa using h) with h2 | h2
        · left; simp [h2]
        · right; exact h2

theorem mapWf_setAssoc {m : List (String × SessionData)} {k : String}
    {v : SessionData} (h : MapWf m) (hv : v.id = k) :
    MapWf (setAssoc m k v) := by
  obtain ⟨hids, hkeys⟩ := h
  induction m with
  | nil =>
    constructor
    · intro kv hkv
      simp [setAssoc] at hkv
      simp [hkv, hv]
    · simp [setAssoc]
  | cons kv rest ih =>
    have hids' : ∀ kv' ∈ rest, kv'.2.id = kv'.1 :=
      fun kv' h' => hids kv' (by simp [h'])
    have hkeys' : (rest.map Prod.fst).Nodup := (List.nodup_cons.mp hkeys).2
    have hhead : kv.1 ∉ rest.map Prod.fst := (List.nodup_cons.mp hkeys).1
    by_cases hk : kv.1 = k
    · constructor
      · intro kv' hkv'
        unfold setAssoc at hkv'
        rw [if_pos hk] at hkv'
        rcases List.mem_cons.mp hkv' with h' | h'
        · rw [h']; simpa [hv] using hk.symm
        · exact hids kv' (by simp [h'])
      · unfold setAssoc
        rw [if_pos hk]
        simpa using hkeys
    · obtain ⟨ih1, ih2⟩ := ih hids' hkeys'
      constructor
      · intro kv' hkv'
        unfold setAssoc at hkv'
        rw [if_neg hk] at hkv'
        rcases List.mem_cons.mp hkv' with h' | h'
        · rw [h']; exact hids kv (by simp)
        · exact ih1 kv' h'
      · unfold setAssoc
        rw [if_neg hk]
        rw [List.map_cons, List.nodup_cons]
        refine ⟨?_, ih2⟩
        intro hcon
        rcases mem_keys_setAssoc hcon with h2 | h2
        · exact hhead h2
        · exact hk h2

theorem mapWf_parseStep (now : Nat) (m : List (String × SessionData))
    (l : JsonLine) (h : MapWf m) : MapWf (parseStep now m l) := by
  unfold parseStep
  cases hE : entryOf l with
  | none => exact h
  | some e =>
    dsimp only
    cases hS : e.sessionId with
    | none => exact h
    | some sid =>
      dsimp only
      by_cases h0 : sid = ""
      · rw [if_pos h0]; exact h
      · rw [if_neg h0]
        apply mapWf_setAssoc h
        rw [applyEntry_id]
        cases hl : lookupAssoc m sid with
        | none => simp [freshSession]
        | some d0 =>
          simp only [hl, Option.getD_some]
          exact h.1 (sid, d0) (lookupAssoc_mem hl)

theorem mapWf_sessionMap (now : Nat) (lines : List JsonLine) :
    MapWf (sessionMap now lines) := by
  unfold sessionMap
  have : ∀ (ls : List JsonLine) (m : List (String × SessionData)),
      MapWf m → MapWf (ls.foldl (parseStep now) m) := by
    intro ls
    induction ls with
    | nil => intro m h; exact h
    | cons l ls' ih => intro m h; exact ih _ (mapWf_parseStep now m l h)
  exact this lines [] ⟨by simp, by simp⟩

theorem lookupAssoc_unique_value {m : List (String × SessionData)}
    (hids : ∀ kv ∈ m, kv.2.id = kv.1) (hkeys : (m.map Prod.fst).Nodup)
    {k : String} {d x : SessionData} (hl : lookupAssoc m k = some d)
    (hx : x ∈ m.map Prod.snd) (hxk : x.id = k) : x = d := by
  induction m with
  | nil => simp at hx
  | cons kv rest ih =>
    have hids' : ∀ kv' ∈ rest, kv'.2.id = kv'.1 :=
      fun kv' h' => hids kv' (by simp [h'])
    have hnod := List.nodup_cons.mp
      (show (kv.1 :: rest.map Prod.fst).Nodup by simpa using hkeys)
    rw [List.map_cons, List.mem_cons] at hx
    by_cases hk : kv.1 = k
    · have hd : d = kv.2 := by
        unfold lookupAssoc at hl
        rw [if_pos hk] at hl
        injection hl with h
        exact h.symm
      rcases hx with hx | hx
      · rw [hx, hd]
      · exfalso
        obtain ⟨kv', hkv', hkv'eq⟩ := List.mem_map.mp hx
        have hkv'1 : kv'.1 = k := by
          rw [← hids kv' (by simp [hkv']), hkv'eq, hxk]
        exact hnod.1 (List.mem_map.mpr ⟨kv', hkv', by rw [hkv'1, hk]⟩)
    · have hl' : lookupAssoc rest k = some d := by
        unfold lookupAssoc at hl
        rwa [if_neg hk] at hl
      rcases hx with hx | hx
      · exfalso
        apply hk
        rw [← hids kv (by simp), ← hx]
        exact hxk
      · exact ih hids' hnod.2 hl' hx

theorem lookup_values_unique {m : List (String × SessionData)}
    (hwf : MapWf m) {k : String} {d : SessionData}
    (hl : lookupAssoc m k = some d) :
    d.id = k ∧ d ∈ m.map Prod.snd ∧
      ∀ x ∈ m.map Prod.snd, x.id = k → x = d := by
  obtain ⟨hids, hkeys⟩ := hwf
  have hmem := lookupAssoc_mem hl
  exact ⟨hids (k, d) hmem, List.mem_map_of_mem Prod.snd hmem,
    fun x hx hxk => lookupAssoc_unique_value hids hkeys hl hx hxk⟩

/-- A session found in the session map of a file is found, with the same
data, in the sorted `parseJsonlSessions` output of that file. -/
theorem find?_parseJsonl_eq_lookup (now : Nat) (lines : List JsonLine)
    (k : String) (d : SessionData)
    (hl : lookupAssoc (sessionMap now lines) k = some d) :
    (parseJsonlSessions now lines).find? (fun x => x.id == k) = some d := by
  obtain ⟨hid, hmem, huniq⟩ :=
    lookup_values_unique (mapWf_sessionMap now lines) hl
  apply find?_eq_of_unique
  · unfold parseJsonlSessions
    rw [mem_sortDescBy]
    exact hmem
  · simp [hid]
  · intro x hx hpx
    unfold parseJsonlSessions at hx
    rw [mem_sortDescBy] at hx
    exact huniq x hx (by simpa using hpx)

/-- Lookup through the dedup merge: an id already collected keeps its
record; a new id gets its first occurrence in the merged list. -/
theorem lookupAssoc_mergeSessions (ss : List SessionData) :
    ∀ (m : List (String × SessionData)) (k : String),
      lookupAssoc (mergeSessions m ss) k =
        match lookupAssoc m k with
        | some v => some v
        | none => ss.find? (fun d => d.id == k) := by
  induction ss with
  | nil =>
    intro m k
    cases h : lookupAssoc m k <;> simp [mergeSessions, h]
  | cons s ss' ih =>
    intro m k
    show lookupAssoc
      (mergeSessions (if (lookupAssoc m s.id).isSome then m
        else m ++ [(s.id, s)]) ss') k = _
    by_cases hs : (lookupAssoc m s.id).isSome
    · rw [if_pos hs, ih m k]
      cases hmk : lookupAssoc m k with
      | some v => rfl
      | none =>
        have hne : (s.id == k) = false := by
          rcases Option.isSome_iff_exists.mp hs with ⟨w, hw⟩
          by_cases h : s.id = k
          · rw [h] at hw
            rw [hw] at hmk
            cases hmk
          · simpa using h
        rw [List.find?_cons_of_neg _ (by simp [hne])]
    · rw [if_neg hs, ih (m ++ [(s.id, s)]) k]
      rw [lookupAssoc_append_single]
      cases hmk : lookupAssoc m k with
      | some v => rfl
      | none =>
        by_cases h : s.id = k
        · rw [if_pos h]
          rw [List.find?_cons_of_pos _ (by simp [h])]
        · rw [if_neg h]
          rw [List.find?_cons_of_neg _ (by simp [h])]

/-- The two-file collection loop: the early-exit test never skips the
second file (it requires `min 3 2 = 2` processed files), and a session
present in the first-processed (newer) file keeps that file's record. -/
theorem collect_two_lookup (limit offset now : Nat) (f1 f2 : LogFile)
    (k : String) (d : SessionData)
    (h1 : lookupAssoc (sessionMap now f1.lines) k = some d) :
    lookupAssoc (collectSessions limit offset now [f1, f2] [] 0 2) k =
      some d := by
  have hacc1 : lookupAssoc
      (mergeSessions [] (parseJsonlSessions now f1.lines)) k = some d := by
    rw [lookupAssoc_mergeSessions]
    exact find?_parseJsonl_eq_lookup now f1.lines k d h1
  have hacc2 : lookupAssoc
      (mergeSessions (mergeSessions [] (parseJsonlSessions now f1.lines))
        (parseJsonlSessions now f2.lines)) k = some d := by
    rw [lookupAssoc_mergeSessions, hacc1]
  show lookupAssoc
    (if (limit + offset) * 2 ≤
        (mergeSessions [] (parseJsonlSessions now f1.lines)).length ∧
        min 3 2 ≤ 0 + 1 then
      mergeSessions [] (parseJsonlSessions now f1.lines)
    else collectSessions limit offset now [f2]
      (mergeSessions [] (parseJsonlSessions now f1.lines)) (0 + 1) 2) k =
    some d
  rw [if_neg (by omega : ¬((limit + offset) * 2 ≤
    (mergeSessions [] (parseJsonlSessions now f1.lines)).length ∧
    min 3 2 ≤ 0 + 1))]
  show lookupAssoc
    (if (limit + offset) * 2 ≤
        (mergeSessions (mergeSessions [] (parseJsonlSessions now f1.lines))
          (parseJsonlSessions now f2.lines)).length ∧
        min 3 2 ≤ 0 + 1 + 1 then
      mergeSessions (mergeSessions [] (parseJsonlSessions now f1.lines))
        (parseJsonlSessions now f2.lines)
    else mergeSessions (mergeSessions [] (parseJsonlSessions now f1.lines))
      (parseJsonlSessions now f2.lines)) k = some d
  split <;> exact hacc2

/-- C2: `getSessions` processes a project's log files newest-first (by
modification time) and deduplicates sessions first-seen-wins: when the two
files of a project both carry entries for a session id, the collected map
holds exactly the record aggregated from the newer file — the older
file's data for that id is ignored. The collection below is the file loop
of `getSessions` over the mtime-sorted `.jsonl` files. -/
theorem C2_dedup_first_seen_wins :
    ∀ (env : Env) (name : String) (limit offset : Nat)
      (files : List LogFile) (f1 f2 : LogFile) (sid : String)
      (d : SessionData),
      env.projectFiles name = some files →
      sortDescBy (fun f => f.mtime) (jsonlFilter files) = [f1, f2] →
      lookupAssoc (sessionMap env.now f1.lines) sid = some d →
      (lookupAssoc (sessionMap env.now f2.lines) sid).isSome →
      lookupAssoc
        (collectSessions limit offset env.now
          (sortDescBy (fun f => f.mtime) (jsonlFilter files)) [] 0
          (sortDescBy (fun f => f.mtime) (jsonlFilter files)).length) sid =
        some d := by
  intro env name limit offset files f1 f2 sid d hf hsort h1 h2
  rw [hsort]
  exact collect_two_lookup limit offset env.now f1 f2 sid d h1

def newerLog : LogFile :=
  ⟨"a.jsonl", 10, [.entry { sessionId := some "s1", timestamp := some 100 }]⟩

def olderLog : LogFile :=
  ⟨"b.jsonl", 5, [.entry { sessionId := some "s1", timestamp := some 30 }]⟩

def envC2 : Env :=
  ⟨["p"], fun n => if n = "p" then some [olderLog, newerLog] else none,
    fun _ => none, fun _ => false, fun _ => false, id, 0⟩

theorem C2_witness :
    lookupAssoc
        (collectSessions 10 0 envC2.now
          (sortDescBy (fun f => f.mtime) (jsonlFilter [olderLog, newerLog]))
          [] 0
          (sortDescBy (fun f => f.mtime)
            (jsonlFilter [olderLog, newerLog])).length) "s1" =
      some ⟨"s1", "New Session", 1, 100, ""⟩ :=
  C2_dedup_first_seen_wins envC2 "p" 10 0 [olderLog, newerLog] newerLog
    olderLog "s1" ⟨"s1", "New Session", 1, 100, ""⟩ (by decide) (by decide)
    (by decide) (by decide)

/-! ## Claim C6 — the rename round trip -/

/-- A manually-added project with no on-disk directory, carrying a
display-name override. -/
def manualOnlyConfig : ProjectConfig :=
  [("p", { displayName := some "X", manuallyAdded := some true,
           originalPath := some "/a/b" })]

def envNoDirs : Env :=
  ⟨[], fun _ => none, fun _ => none, fun _ => false, fun _ => false, id, 0⟩

/-- C6 fails as stated: `renameProject(p, "")` deletes p's ENTIRE config
entry (`delete config[p]`), not just the `displayName` override — the
`manuallyAdded` flag and `originalPath` are lost with it — so a
manually-added project with no on-disk directory, listed before the
rename, no longer appears in `getProjects()` afterwards. -/
theorem C6_counterexample :
    lookupAssoc (renameProject manualOnlyConfig "p" "") "p" = none
    ∧ (getProjects envNoDirs manualOnlyConfig []).1.map
        (fun pr => pr.name) = ["p"]
    ∧ (getProjects envNoDirs (renameProject manualOnlyConfig "p" "") []).1.map
        (fun pr => pr.name) = [] := by
  refine ⟨by decide, by decide, by decide⟩

theorem diskProject_fst_of_uncached (env : Env) (config : ProjectConfig)
    {cache : DirCache} {p : String} (h : lookupAssoc cache p = none) :
    (diskProject env config cache p).1 = (diskProject env config [] p).1 := by
  unfold diskProject
  dsimp only
  rw [extract_path_of_uncached env cache p h]

theorem diskProject_name (env : Env) (config : ProjectConfig)
    (cache : DirCache) (d : String) :
    (diskProject env config cache d).1.name = d := rfl

/-- The display name `getProjects` gives an on-disk project: the truthy
config override, else the generated name over the resolved directory. -/
theorem diskProject_displayName (env : Env) (config : ProjectConfig)
    (cache : DirCache) (d : String) :
    (diskProject env config cache d).1.displayName =
      match (lookupAssoc config d).bind (fun e => e.displayName) with
      | some s => if s = "" then generateDisplayName env d
          (some (extractProjectDirectory env cache d).path) else s
      | none => generateDisplayName env d
          (some (extractProjectDirectory env cache d).path) := rfl

theorem diskLoop_find (env : Env) (config : ProjectConfig) :
    ∀ (ds : List String) (cache : DirCache) (p : String),
      p ∈ ds → lookupAssoc cache p = none →
      (diskLoop env config ds cache).1.find? (fun pr => pr.name == p) =
        some (diskProject env config [] p).1 := by
  intro ds
  induction ds with
  | nil => intro cache p h; simp at h
  | cons d ds' ih =>
    intro cache p hmem hcache
    show ((diskProject env config cache d).1 ::
        (diskLoop env config ds' (diskProject env config cache d).2).1).find?
        (fun pr => pr.name == p) = _
    by_cases hdp : d = p
    · subst hdp
      rw [List.find?_cons_of_pos (p := fun pr : Project => pr.name == d) _
        (by
          show ((diskProject env config cache d).1.name == d) = true
          rw [diskProject_name]
          simp)]
      rw [diskProject_fst_of_uncached env config hcache]
    · have hmem' : p ∈ ds' := by
        rcases List.mem_cons.mp hmem with h | h
        · exact absurd h.symm hdp
        · exact h
      have hcache' : lookupAssoc (diskProject env config cache d).2 p
          = none := by
        show lookupAssoc (extractProjectDirectory env cache d).cache p = none
        rw [extract_cache_lookup_other env cache
          (show p ≠ d from fun h => hdp h.symm)]
        exact hcache
      rw [List.find?_cons_of_neg (p := fun pr : Project => pr.name == p) _
        (by
          show ¬((diskProject env config cache d).1.name == p) = true
          rw [diskProject_name]
          simp [hdp])]
      exact ih (diskProject env config cache d).2 p hmem' hcache'

theorem diskLoop_names (env : Env) (config : ProjectConfig) :
    ∀ (ds : List String) (cache : DirCache) (pr : Project),
      pr ∈ (diskLoop env config ds cache).1 → pr.name ∈ ds := by
  intro ds
  induction ds with
  | nil => intro cache pr h; simp [diskLoop] at h
  | cons d ds' ih =>
    intro cache pr h
    rcases List.mem_cons.mp h with h1 | h1
    · have hname : pr.name = d := by
        subst h1
        exact diskProject_name env config cache d
      rw [hname]
      exact List.mem_cons_self d ds'
    · exact List.mem_cons_of_mem _
        (ih (diskProject env config cache d).2 pr h1)

theorem manualProject_name (env : Env) (cache : DirCache) (k : String)
    (pc : ProjectConfigEntry) : (manualProject env cache k pc).1.name = k :=
  rfl

theorem manualLoop_names (env : Env) :
    ∀ (cfg : ProjectConfig) (existing : List String) (cache : DirCache)
      (pr : Project), pr ∈ (manualLoop env cfg existing cache).1 →
      (lookupAssoc cfg pr.name).isSome := by
  intro cfg
  induction cfg with
  | nil => intro existing cache pr h; simp [manualLoop] at h
  | cons kv rest ih =>
    intro existing cache pr h
    obtain ⟨k, pc⟩ := kv
    unfold manualLoop at h
    by_cases hcond : k ∉ existing ∧ pc.manuallyAdded = some true
    · rw [if_pos hcond] at h
      rcases List.mem_cons.mp h with h1 | h1
      · have hname : pr.name = k := by
          subst h1
          exact manualProject_name env cache k pc
        simp [lookupAssoc, hname]
      · exact lookupAssoc_cons_isSome (k, pc) rest pr.name
          (ih existing (manualProject env cache k pc).2 pr h1)
    · rw [if_neg hcond] at h
      exact lookupAssoc_cons_isSome (k, pc) rest pr.name
        (ih existing cache pr h)

/-- C6 as amended: `rename(p, X)` with a non-blank `X` followed by
`list()` shows `displayName = X.trim()` for an on-disk project `p`, and
`rename(p, "")` followed by `list()` shows the derived name again — but
the empty string deletes p's ENTIRE config entry rather than only the
`displayName` override, so while an on-disk project stays listed (listing
is driven by directory enumeration), a manually-added project with no
on-disk directory drops out of `list()` after `rename(p, "")`. The cache
hypothesis says p has not been resolved yet (a fresh catalog). -/
theorem C6_rename_roundtrip_amended :
    (∀ (env : Env) (config : ProjectConfig) (cache : DirCache)
      (p newName : String),
        p ∈ env.projectDirs → lookupAssoc cache p = none →
        trimStr newName ≠ "" →
        ((getProjects env (renameProject config p newName) cache).1.find?
            (fun pr => pr.name == p)).map (fun pr => pr.displayName) =
          some (trimStr newName))
    ∧ (∀ (env : Env) (config : ProjectConfig) (cache : DirCache)
      (p : String),
        p ∈ env.projectDirs → lookupAssoc cache p = none →
        ((getProjects env (renameProject config p "") cache).1.find?
            (fun pr => pr.name == p)).map (fun pr => pr.displayName) =
          some (generateDisplayName env p
            (some (extractProjectDirectory env [] p).path)))
    ∧ (∀ (env : Env) (config : ProjectConfig) (cache : DirCache)
      (p : String),
        p ∉ env.projectDirs →
        (getProjects env (renameProject config p "") cache).1.find?
          (fun pr => pr.name == p) = none) := by
  refine ⟨?_, ?_, ?_⟩
  · intro env config cache p newName hp hc hn
    set cfg' := renameProject config p newName with hcfg
    have hlook : lookupAssoc cfg' p =
        some { (lookupAssoc config p).getD {} with
          displayName := some (trimStr newName) } := by
      rw [hcfg]
      unfold renameProject
      rw [if_neg hn]
      exact lookupAssoc_setAssoc_self _ _ _
    have hdn : (lookupAssoc cfg' p).bind (fun e => e.displayName) =
        some (trimStr newName) := by
      rw [hlook]
      exact rfl
    show (((diskLoop env cfg' env.projectDirs cache).1 ++
        (manualLoop env cfg' env.projectDirs
          (diskLoop env cfg' env.projectDirs cache).2).1).find?
        (fun pr => pr.name == p)).map (fun pr => pr.displayName) = _
    rw [List.find?_append,
      diskLoop_find env cfg' env.projectDirs cache p hp hc]
    show some ((diskProject env cfg' [] p).1.displayName) = _
    rw [diskProject_displayName env cfg' [] p, hdn]
    show some (if trimStr newName = "" then generateDisplayName env p
      (some (extractProjectDirectory env [] p).path)
      else trimStr newName) = _
    rw [if_neg hn]
  · intro env config cache p hp hc
    set cfg' := renameProject config p "" with hcfg
    have hlook : lookupAssoc cfg' p = none := by
      rw [hcfg]
      unfold renameProject
      rw [if_pos (by decide)]
      exact lookupAssoc_eraseAssoc_self config p
    have hdn : (lookupAssoc cfg' p).bind (fun e => e.displayName) = none := by
      rw [hlook]
      exact rfl
    show (((diskLoop env cfg' env.projectDirs cache).1 ++
        (manualLoop env cfg' env.projectDirs
          (diskLoop env cfg' env.projectDirs cache).2).1).find?
        (fun pr => pr.name == p)).map (fun pr => pr.displayName) = _
    rw [List.find?_append,
      diskLoop_find env cfg' env.projectDirs cache p hp hc]
    show some ((diskProject env cfg' [] p).1.displayName) = _
    rw [diskProject_displayName env cfg' [] p, hdn]
  · intro env config cache p hp
    set cfg' := renameProject config p "" with hcfg
    have hlook : lookupAssoc cfg' p = none := by
      rw [hcfg]
      unfold renameProject
      rw [if_pos (by decide)]
      exact lookupAssoc_eraseAssoc_self config p
    apply List.find?_eq_none.mpr
    intro pr hpr hname
    have hpname : pr.name = p := by simpa using hname
    rcases List.mem_append.mp hpr with h1 | h1
    · exact hp (hpname ▸ diskLoop_names env cfg' env.projectDirs cache pr h1)
    · have := manualLoop_names env cfg' env.projectDirs
        (diskLoop env cfg' env.projectDirs cache).2 pr h1
      rw [hpname, hlook] at this
      simp at this

end CalfinsCode
